import Mathlib

/-!
# Verification of the LLM-council concurrency/aggregation core

Shallow embedding of `backend/council.py` (stage-1 batch collection with one
bounded retry round, the streaming collector with its majority-quorum event,
free-text rank extraction, rank aggregation, and the pipeline coordinator's
total-failure branch), together with theorems settling the frozen claims
about that code.

Conventions of the embedding:
* Python floats carrying elapsed times / costs are modelled as exact
  rationals (`ℚ`); float representation error is not modelled.
* `None`-able values are `Option`s; a worker invocation is an abstract
  function `String → Option Resp` (the network layer is a black box that
  either yields a response record or fails).
* Scanning loops over strings are written with an explicit fuel argument
  equal to the input length so that every definition is structurally
  recursive and kernel-evaluable on concrete inputs.
-/

/-- Python's `\s` (whitespace class) restricted to the ASCII range, which is
the only range the council's prompts and verdict texts use. -/
def pyIsSpace (c : Char) : Bool :=
  c = ' ' || c = '\t' || c = '\n' || c = '\r' || c = '\x0b' || c = '\x0c'

/-- The character class `[A-Z]` of the label regexes. -/
def isUpperAZ (c : Char) : Bool :=
  decide ('A' ≤ c) && decide (c ≤ 'Z')

/-- The fixed nine characters preceding the label letter in the pattern
`Response [A-Z]`. -/
def labelHead : List Char := "Response ".data

/-- Attempt to match the regex `Response [A-Z]` at the head of `cs`;
on success return the uppercase label letter.  A successful match consumes
exactly ten characters. -/
def matchLabel (cs : List Char) : Option Char :=
  if labelHead.isPrefixOf cs then
    match cs.drop 9 with
    | c :: _ => if isUpperAZ c then some c else none
    | [] => none
  else none

/-- Fuel-indexed scanner for `re.findall(r'Response [A-Z]', ·)`: left to
right, non-overlapping, advancing one character past failed match
attempts and past the whole match otherwise. -/
def findLabelsGo : Nat → List Char → List String
  | 0, _ => []
  | _ + 1, [] => []
  | f + 1, c :: t =>
    match matchLabel (c :: t) with
    | some u => ("Response ".push u) :: findLabelsGo f ((c :: t).drop 10)
    | none => findLabelsGo f t

/-- Scan for `re.findall(r'Response [A-Z]', cs)`, returning the matched substrings. -/
def findLabels (cs : List Char) : List String :=
  findLabelsGo cs.length cs

/-- Attempt to match the regex `\d+\.\s*Response [A-Z]` at the head of `cs`.
Greedy `\d+` followed by a literal `.` is equivalent to the maximal digit
run followed by `.` (shrinking the run puts a digit where `.` must be), and
greedy `\s*` followed by the literal `R` is equivalent to the maximal
whitespace run (shrinking it puts a whitespace character where `R` must
be), so no backtracking is needed.  On success return the label letter and
the total number of characters consumed.  The source applies
`re.search(r'Response [A-Z]', m)` to each full match `m`; since a full
match is digits, a period and whitespace followed by the label, that search
always yields exactly the trailing label, which we return directly. -/
def matchNumbered (cs : List Char) : Option (Char × Nat) :=
  if (cs.takeWhile Char.isDigit).isEmpty then none
  else
    match cs.drop (cs.takeWhile Char.isDigit).length with
    | '.' :: rest =>
      match matchLabel (rest.drop (rest.takeWhile pyIsSpace).length) with
      | some u =>
        some (u, (cs.takeWhile Char.isDigit).length + 1 +
          (rest.takeWhile pyIsSpace).length + 10)
      | none => none
    | _ => none

/-- Fuel-indexed scanner for `re.findall(r'\d+\.\s*Response [A-Z]', ·)`,
already projected to the label token of each match. -/
def findNumberedGo : Nat → List Char → List String
  | 0, _ => []
  | _ + 1, [] => []
  | f + 1, c :: t =>
    match matchNumbered (c :: t) with
    | some (u, n) => ("Response ".push u) :: findNumberedGo f ((c :: t).drop n)
    | none => findNumberedGo f t

/-- The label tokens of all `\d+\.\s*Response [A-Z]` matches in `cs`, in
order of appearance. -/
def findNumbered (cs : List Char) : List String :=
  findNumberedGo cs.length cs

/-- Python's substring test `sep in cs` (for non-empty `sep`). -/
def containsSub (sep : List Char) : List Char → Bool
  | [] => sep.isPrefixOf []
  | c :: t => sep.isPrefixOf (c :: t) || containsSub sep t

/-- Fuel-indexed worker for Python's `cs.split(sep)` (non-empty `sep`):
scan left to right, cutting at each leftmost non-overlapping occurrence of
`sep` and resuming immediately after it.  `acc` holds the characters of the
current part in reverse. -/
def splitOnGo (sep : List Char) : Nat → List Char → List Char → List (List Char)
  | 0, cs, acc => [acc.reverse ++ cs]
  | _ + 1, [], acc => [acc.reverse]
  | f + 1, c :: t, acc =>
    if sep.isPrefixOf (c :: t) then
      acc.reverse :: splitOnGo sep f ((c :: t).drop sep.length) []
    else
      splitOnGo sep f t (c :: acc)

/-- Python's `cs.split(sep)` for non-empty `sep`. -/
def pySplit (sep cs : List Char) : List (List Char) :=
  splitOnGo sep cs.length cs []

/-- The literal marker `"FINAL RANKING:"` introducing the verdict section. -/
def finalMarker : List Char := "FINAL RANKING:".data

/-- The extractor `parse_ranking_from_text` (council.py): if the marker occurs in the
text, split on it and use `parts[1]` as the verdict section; inside the
section return the labels of the numbered-list matches if any, else all
bare label occurrences; if the marker is absent (or, vacuously, the split
yields fewer than two parts) scan the entire text for bare labels. -/
def parse_ranking_from_text (ranking_text : String) : List String :=
  if containsSub finalMarker ranking_text.data then
    if 2 ≤ (pySplit finalMarker ranking_text.data).length then
      if (findNumbered ((pySplit finalMarker ranking_text.data).getD 1 [])).isEmpty then
        findLabels ((pySplit finalMarker ranking_text.data).getD 1 [])
      else findNumbered ((pySplit finalMarker ranking_text.data).getD 1 [])
    else findLabels ranking_text.data
  else findLabels ranking_text.data

/-- A successful worker invocation as returned by `query_model`
(openrouter.py): content plus optional elapsed time, usage blob and cost.
Usage payloads are opaque to the core, so they are modelled as strings. -/
structure Resp where
  content : String
  elapsed_time : Option ℚ
  usage : Option String
  cost : Option ℚ
deriving DecidableEq

/-- A stage-1 result record as appended to `stage1_results`. -/
structure S1Record where
  model : String
  response : String
  elapsed_time : Option ℚ
  usage : Option String
  cost : Option ℚ
deriving DecidableEq

/-- The placeholder response recorded for a candidate whose first attempt
failed in the batch collector. -/
def placeholderResponse : String := "No response. Might retry."

/-- The annotation prepended to a retried success's content. -/
def secondAttemptNote : String :=
  "Model did not reply on the first attempt. This is the second attempt\n"

/-- The record appended for a first-attempt success. -/
def firstAttemptRecord (model : String) (r : Resp) : S1Record :=
  ⟨model, r.content, r.elapsed_time, r.usage, r.cost⟩

/-- The placeholder record appended for a first-attempt failure. -/
def placeholderRecord (model : String) : S1Record :=
  ⟨model, placeholderResponse, none, none, none⟩

/-- The record appended for a retried success (second attempt). -/
def secondAttemptRecord (model : String) (r : Resp) : S1Record :=
  ⟨model, secondAttemptNote ++ r.content, r.elapsed_time, r.usage, r.cost⟩

/-- The result-formatting loop of `stage1_collect_responses` (council.py,
lines 68–102): walk the candidate models in their original order; a
first-attempt success contributes its record; a first-attempt failure
contributes the placeholder, followed by the annotated retry record when
the single retry round produced a response.  `first` and `retry` are the
outcomes of the two concurrent query rounds (the retry map is only ever
consulted for first-round failures, matching the source, which queries
only `failed_models` in the retry round). -/
def stage1_collect_responses (models : List String)
    (first retry : String → Option Resp) : List S1Record :=
  models.foldl (fun acc model =>
    match first model with
    | some r => acc ++ [firstAttemptRecord model r]
    | none =>
      match retry model with
      | some r2 => acc ++ [placeholderRecord model, secondAttemptRecord model r2]
      | none => acc ++ [placeholderRecord model]) []

/-- The records the batch collector emits for one candidate. -/
def perModelRecords (first retry : String → Option Resp) (model : String) :
    List S1Record :=
  match first model with
  | some r => [firstAttemptRecord model r]
  | none =>
    match retry model with
    | some r2 => [placeholderRecord model, secondAttemptRecord model r2]
    | none => [placeholderRecord model]

/-- The successful first-round elapsed times used for the retry timeout
(council.py, lines 52–55): responses that are not `None` and carry a
non-`None` elapsed time, in candidate order. -/
def successful_durations (models : List String)
    (first : String → Option Resp) : List ℚ :=
  models.filterMap (fun m => (first m).bind (fun r => r.elapsed_time))

/-- The retry-round timeout (council.py, lines 56–59): the maximum
successful duration, defaulting to 120 when there are none, floored at
10. -/
def retry_timeout (models : List String) (first : String → Option Resp) : ℚ :=
  max
    (match successful_durations models first with
     | [] => 120
     | d :: rest => rest.foldl max d)
    10

/-- The total-failure test of `run_full_council` (council.py, line 668):
`if not stage1_results`, i.e. the stage-1 output list is empty.  When it
holds the pipeline returns the single synthetic error result and skips
stages 2 and 3. -/
def run_full_council_failed (stage1_results : List S1Record) : Bool :=
  stage1_results.isEmpty

/-- The stage-2 judge pool (council.py, lines 397–405): the active models
for which the stage-1 output contains at least one record whose response
differs from the batch placeholder. -/
def stage2_judges (active : List String) (stage1_results : List S1Record) :
    List String :=
  active.filter (fun m =>
    stage1_results.any (fun r => r.model == m && r.response != placeholderResponse))

/-- Association-list lookup with propositional key equality; models
Python's `d[k]` / `k in d` on string-keyed dicts. -/
def alookup {α : Type} (k : String) : List (String × α) → Option α
  | [] => none
  | (k', v) :: t => if k' = k then some v else alookup k t

/-- Python dict assignment `d[k] = v`: replace the value in place if the
key is present (keeping its original insertion position), else append the
new key at the end. -/
def dictInsert {α : Type} (k : String) (v : α) :
    List (String × α) → List (String × α)
  | [] => [(k, v)]
  | (k', v') :: t =>
    if k' = k then (k', v) :: t else (k', v') :: dictInsert k v t

/-- The majority threshold, `math.ceil(total / 2)` on a natural number of models. -/
def majority_threshold (total_models : Nat) : Nat := (total_models + 1) / 2

/-- Events yielded by `stage1_collect_responses_streaming` (council.py,
lines 139–204); `stage2_collect_rankings_streaming` (lines 279–332) emits
the same event shapes for its judge pool and judgment records. -/
inductive SEvent where
  | model_complete (model : String) (response : S1Record) (completed total : Nat)
  | majority_reached (results : List S1Record) (completed total : Nat)
  | model_failed (model : String) (completed total : Nat)
  | stage_complete (results : List S1Record)
deriving DecidableEq

/-- Holds (`true`) exactly on `majority_reached` events. -/
def SEvent.isMajority : SEvent → Bool
  | .majority_reached _ _ _ => true
  | _ => false

/-- Loop state of the streaming collector: the insertion-ordered
`results` dict, the `completed_count` mirror of the generator's counter,
and the `majority_yielded` latch. -/
structure StreamState where
  results : List (String × S1Record)
  completed_count : Nat
  majority_yielded : Bool
deriving DecidableEq

/-- One iteration of the streaming collector's `async for` body: on a
success, store the record in the `results` dict, emit `model_complete`,
and — in majority mode, if the latch is unset and the dict has reached
`ceil(total/2)` entries — set the latch and emit `majority_reached`
carrying the successful records reordered into original candidate order;
on a failure emit `model_failed` only. -/
def streamStep (models : List String) (majority_mode : Bool)
    (s : StreamState) (model : String) (response : Option Resp) :
    StreamState × List SEvent :=
  let completed := s.completed_count + 1
  match response with
  | some r =>
    let result := firstAttemptRecord model r
    let results' := dictInsert model result s.results
    let ev := SEvent.model_complete model result completed models.length
    if majority_mode && !s.majority_yielded &&
        decide (majority_threshold models.length ≤ results'.length) then
      let ordered := models.filterMap (fun m => alookup m results')
      (⟨results', completed, true⟩,
        [ev, SEvent.majority_reached ordered results'.length models.length])
    else
      (⟨results', completed, s.majority_yielded⟩, [ev])
  | none =>
    (⟨s.results, completed, s.majority_yielded⟩,
      [SEvent.model_failed model completed models.length])

/-- The whole `async for` loop over the settlement sequence `arrivals`
(each element: the settling model and its outcome, in real-time completion
order as yielded by `query_models_streaming`). -/
def streamRun (models : List String) (majority_mode : Bool)
    (s : StreamState) : List (String × Option Resp) → StreamState × List SEvent
  | [] => (s, [])
  | (m, resp) :: rest =>
    let step := streamStep models majority_mode s m resp
    let rec' := streamRun models majority_mode step.1 rest
    (rec'.1, step.2 ++ rec'.2)

/-- The streaming placeholder record for a candidate that never
succeeded. -/
def streamPlaceholder (model : String) : S1Record :=
  ⟨model, "No response.", none, none, none⟩

/-- The collector `stage1_collect_responses_streaming` (council.py, lines 139–204),
given the candidate set and the real-time settlement sequence: the loop's
events followed by the terminal `stage_complete` carrying the
candidate-ordered results with placeholders for candidates that never
succeeded.  The identically-structured judging loop of
`stage2_collect_rankings_streaming` shares this majority logic. -/
def stage1_collect_responses_streaming (models : List String)
    (majority_mode : Bool) (arrivals : List (String × Option Resp)) :
    List SEvent :=
  let run := streamRun models majority_mode ⟨[], 0, false⟩ arrivals
  let finals := models.map (fun m =>
    match alookup m run.1.results with
    | some r => r
    | none => streamPlaceholder m)
  run.2 ++ [SEvent.stage_complete finals]

/-- The successful settlements of an arrival sequence, as dict entries in
arrival order. -/
def successEntries (arrivals : List (String × Option Resp)) :
    List (String × S1Record) :=
  arrivals.filterMap (fun p => p.2.map (fun r => (p.1, firstAttemptRecord p.1 r)))

/-- A stage-2 judgment record. -/
structure S2Record where
  model : String
  ranking : String
  parsed_ranking : List String
  elapsed_time : Option ℚ
  cost : Option ℚ
deriving DecidableEq

/-- An aggregate entry as built by `calculate_aggregate_rankings`. -/
structure AggregateEntry where
  model : String
  average_rank : ℚ
  rankings_count : Nat
  total_elapsed_time : ℚ
  total_cost : ℚ
deriving DecidableEq

/-- Python's `model_positions[k].append(p)` on the insertion-ordered
`defaultdict(list)`: extend the existing key's list in place, or append a
fresh key holding `[p]`. -/
def appendPos (k : String) (p : Nat) :
    List (String × List Nat) → List (String × List Nat)
  | [] => [(k, [p])]
  | (k', ps) :: t =>
    if k' = k then (k', ps ++ [p]) :: t else (k', ps) :: appendPos k p t

/-- The inner loop of the aggregator (council.py, lines 590–593): walk a
parsed ranking's `(1-based position, label)` pairs; resolve each label via
the label map and append the position to that worker's list, silently
dropping unknown labels. -/
def addPositions (label_to_model : List (String × String))
    (mp : List (String × List Nat)) (pairs : List (Nat × String)) :
    List (String × List Nat) :=
  pairs.foldl (fun mp' pl =>
    match alookup pl.2 label_to_model with
    | some model_name => appendPos model_name pl.1 mp'
    | none => mp') mp

/-- Banker's rounding of an exact rational to the nearest integer, as
Python's `round` performs on its (here exactly represented) argument;
float representation error is not modelled. -/
def round_half_even (q : ℚ) : ℤ :=
  if q - ⌊q⌋ < 1 / 2 then ⌊q⌋
  else if 1 / 2 < q - ⌊q⌋ then ⌊q⌋ + 1
  else if (⌊q⌋ : ℤ) % 2 = 0 then ⌊q⌋ else ⌊q⌋ + 1

/-- Python's `round(q, 2)` on an exactly represented rational. -/
def round2 (q : ℚ) : ℚ := (round_half_even (q * 100) : ℚ) / 100

/-- Stage-1 elapsed-time rollup for one worker: the
`stage1_time_cost[model]["elapsed_time"]` sum (council.py, lines
565–574). -/
def sumElapsedS1 (stage1 : List S1Record) (m : String) : ℚ :=
  stage1.foldl (fun a r =>
    if r.model = m then a + r.elapsed_time.getD 0 else a) 0

/-- Stage-1 cost rollup for one worker. -/
def sumCostS1 (stage1 : List S1Record) (m : String) : ℚ :=
  stage1.foldl (fun a r => if r.model = m then a + r.cost.getD 0 else a) 0

/-- Stage-2 elapsed-time rollup for one worker acting as judge. -/
def sumElapsedS2 (stage2 : List S2Record) (m : String) : ℚ :=
  stage2.foldl (fun a r =>
    if r.model = m then a + r.elapsed_time.getD 0 else a) 0

/-- Stage-2 cost rollup for one worker acting as judge. -/
def sumCostS2 (stage2 : List S2Record) (m : String) : ℚ :=
  stage2.foldl (fun a r => if r.model = m then a + r.cost.getD 0 else a) 0

/-- Insert `x` into an already sorted list, before the first element `y`
with `le x y`; an element equal under the key therefore stays after `x`. -/
def insertLe {α : Type} (le : α → α → Bool) (x : α) : List α → List α
  | [] => [x]
  | y :: t => if le x y then x :: y :: t else y :: insertLe le x t

/-- Stable insertion sort.  Python's `list.sort(key=...)` is specified
as a stable sort by the key; stable insertion sort is extensionally the
same function and is structurally recursive, hence kernel-evaluable. -/
def stableSort {α : Type} (le : α → α → Bool) : List α → List α
  | [] => []
  | x :: t => insertLe le x (stableSort le t)

/-- The `model_positions` accumulation loop of
`calculate_aggregate_rankings` (council.py, lines 576–593): fold the
judgment records in order, re-parsing each ranking text and appending the
resolved positions. -/
def model_positions (stage2_results : List S2Record)
    (label_to_model : List (String × String)) : List (String × List Nat) :=
  stage2_results.foldl (fun mp j =>
    addPositions label_to_model mp
      (List.enumFrom 1 (parse_ranking_from_text j.ranking))) []

/-- One aggregate entry for a worker and its accumulated position list:
average rank rounded to two decimals, the count of received rankings, and
the stage-1 + stage-2 time/cost rollups (council.py, lines 596–608). -/
def aggregateEntryOf (stage2_results : List S2Record)
    (stage1_results : List S1Record) (x : String × List Nat) : AggregateEntry :=
  { model := x.1
    average_rank := round2 ((x.2.map (fun p => (p : ℚ))).sum / x.2.length)
    rankings_count := x.2.length
    total_elapsed_time := round2
      (sumElapsedS1 stage1_results x.1 + sumElapsedS2 stage2_results x.1)
    total_cost := round2
      (sumCostS1 stage1_results x.1 + sumCostS2 stage2_results x.1) }

/-- The aggregator `calculate_aggregate_rankings` (council.py, lines 541–613): re-parse
each judgment's ranking text, accumulate 1-based positions per resolved
worker, then emit one entry per worker with a non-empty position list,
sorted ascending by average rank with Python's stable sort. -/
def calculate_aggregate_rankings (stage2_results : List S2Record)
    (label_to_model : List (String × String))
    (stage1_results : List S1Record) : List AggregateEntry :=
  stableSort (fun a b => decide (a.average_rank ≤ b.average_rank))
    ((model_positions stage2_results label_to_model).foldl (fun agg x =>
      if x.2.isEmpty then agg
      else agg ++ [aggregateEntryOf stage2_results stage1_results x]) [])

/-- Claim-side characterization of one judgment's contribution: the
1-based positions (indices into the full parsed sequence) of the
occurrences whose label resolves to worker `w`. -/
def posInJudgment (label_to_model : List (String × String)) (w : String)
    (j : S2Record) : List Nat :=
  (List.enumFrom 1 (parse_ranking_from_text j.ranking)).filterMap
    (fun pl => if alookup pl.2 label_to_model = some w then some pl.1 else none)

/-- Claim-side characterization of a worker's full resolved position
list across all judgments, in order. -/
def positionsOf (stage2_results : List S2Record)
    (label_to_model : List (String × String)) (w : String) : List Nat :=
  stage2_results.flatMap (posInJudgment label_to_model w)

/-- Append new positions to an optional accumulated list: the shape in
which a worker's entry evolves in the positions dict. -/
def optAppend (o : Option (List Nat)) (new : List Nat) : Option (List Nat) :=
  match o with
  | some ps => some (ps ++ new)
  | none => if new.isEmpty then none else some new

/-! ## Helper lemmas: shape of extracted label tokens -/

theorem matchLabel_isUpper {cs : List Char} {u : Char}
    (h : matchLabel cs = some u) : isUpperAZ u = true := by
  unfold matchLabel at h
  by_cases hp : labelHead.isPrefixOf cs
  · simp only [hp, if_true] at h
    cases hd : cs.drop 9 with
    | nil => rw [hd] at h; exact absurd h (by simp)
    | cons c rest =>
      rw [hd] at h
      by_cases hu : isUpperAZ c
      · simp only [hu, if_true, Option.some.injEq] at h
        exact h ▸ hu
      · simp [hu] at h
  · simp [hp] at h

theorem matchNumbered_isUpper {cs : List Char} {u : Char} {n : Nat}
    (h : matchNumbered cs = some (u, n)) : isUpperAZ u = true := by
  unfold matchNumbered at h
  split at h
  · exact absurd h (by simp)
  · split at h
    · split at h
      · rename_i v hm
        simp only [Option.some.injEq, Prod.mk.injEq] at h
        exact h.1 ▸ matchLabel_isUpper hm
      · exact absurd h (by simp)
    · exact absurd h (by simp)

theorem findLabelsGo_shape : ∀ (f : Nat) (cs : List Char) (x : String),
    x ∈ findLabelsGo f cs → ∃ c, isUpperAZ c = true ∧ x = "Response ".push c := by
  intro f
  induction f with
  | zero => intro cs x h; simp [findLabelsGo] at h
  | succ f ih =>
    intro cs x h
    match cs with
    | [] => simp [findLabelsGo] at h
    | c :: t =>
      rw [findLabelsGo] at h
      cases hm : matchLabel (c :: t) with
      | some u =>
        rw [hm] at h
        rcases List.mem_cons.mp h with h1 | h2
        · exact ⟨u, matchLabel_isUpper hm, h1⟩
        · exact ih _ x h2
      | none =>
        rw [hm] at h
        exact ih t x h

theorem findNumberedGo_shape : ∀ (f : Nat) (cs : List Char) (x : String),
    x ∈ findNumberedGo f cs → ∃ c, isUpperAZ c = true ∧ x = "Response ".push c := by
  intro f
  induction f with
  | zero => intro cs x h; simp [findNumberedGo] at h
  | succ f ih =>
    intro cs x h
    match cs with
    | [] => simp [findNumberedGo] at h
    | c :: t =>
      rw [findNumberedGo] at h
      cases hm : matchNumbered (c :: t) with
      | some p =>
        obtain ⟨u, n⟩ := p
        rw [hm] at h
        rcases List.mem_cons.mp h with h1 | h2
        · exact ⟨u, matchNumbered_isUpper hm, h1⟩
        · exact ih _ x h2
      | none =>
        rw [hm] at h
        exact ih t x h

theorem parse_shape (s : String) (x : String)
    (h : x ∈ parse_ranking_from_text s) :
    ∃ c, isUpperAZ c = true ∧ x = "Response ".push c := by
  unfold parse_ranking_from_text at h
  split at h
  · split at h
    · split at h
      · exact findLabelsGo_shape _ _ x h
      · exact findNumberedGo_shape _ _ x h
    · exact findLabelsGo_shape _ _ x h
  · exact findLabelsGo_shape _ _ x h

/-! ## Helper lemmas: Python `split` on the marker -/

theorem isPrefixOf_append_self : ∀ (l r : List Char), l.isPrefixOf (l ++ r) = true := by
  intro l
  induction l with
  | nil => intro r; simp [List.isPrefixOf]
  | cons c t ih => intro r; simp [List.isPrefixOf, ih r]

theorem containsSub_append_marker (sep pre rest : List Char) (hs : sep ≠ []) :
    containsSub sep (pre ++ sep ++ rest) = true := by
  induction pre with
  | nil =>
    match sep, hs with
    | s :: st, _ =>
      simp only [List.nil_append, List.cons_append, containsSub, Bool.or_eq_true]
      exact Or.inl (by simp [isPrefixOf_append_self (s :: st) rest])
  | cons p t ih =>
    simp only [List.cons_append, containsSub, Bool.or_eq_true]
    exact Or.inr ih

theorem splitOnGo_no_occurrence (sep : List Char) :
    ∀ (cs : List Char) (f : Nat) (acc : List Char),
    containsSub sep cs = false → splitOnGo sep f cs acc = [acc.reverse ++ cs] := by
  intro cs
  induction cs with
  | nil =>
    intro f acc _
    cases f <;> simp [splitOnGo]
  | cons c t ih =>
    intro f acc h
    simp only [containsSub, Bool.or_eq_false_iff] at h
    cases f with
    | zero => simp [splitOnGo]
    | succ f =>
      rw [splitOnGo, if_neg (by simp [h.1])]
      rw [ih f (c :: acc) h.2]
      simp

theorem splitOnGo_first (sep : List Char) (hs : sep ≠ []) :
    ∀ (pre rest acc : List Char) (f : Nat),
    (∀ i, i < pre.length → sep.isPrefixOf ((pre ++ sep ++ rest).drop i) = false) →
    (pre ++ sep ++ rest).length ≤ f →
    ∃ g, splitOnGo sep f (pre ++ sep ++ rest) acc =
      (acc.reverse ++ pre) :: splitOnGo sep g rest [] ∧ rest.length ≤ g := by
  intro pre
  induction pre with
  | nil =>
    intro rest acc f _ hf
    match sep, hs with
    | s :: st, _ =>
      simp only [List.nil_append, List.length_append, List.length_cons] at hf
      cases f with
      | zero => omega
      | succ f =>
        refine ⟨f, ?_, by omega⟩
        rw [List.nil_append, List.cons_append, splitOnGo,
          if_pos (by simp [isPrefixOf_append_self (s :: st) rest])]
        simp [List.drop_left]
  | cons p t ih =>
    intro rest acc f hocc hf
    cases f with
    | zero => simp at hf
    | succ f =>
      have h0 : sep.isPrefixOf (p :: (t ++ (sep ++ rest))) = false := by
        simpa using hocc 0 (by simp)
      have hstep : splitOnGo sep (f + 1) ((p :: t) ++ sep ++ rest) acc =
          if sep.isPrefixOf ((p :: t) ++ sep ++ rest) then
            acc.reverse ::
              splitOnGo sep f (((p :: t) ++ sep ++ rest).drop sep.length) []
          else splitOnGo sep f (t ++ sep ++ rest) (p :: acc) := rfl
      rw [hstep, if_neg (by simp [h0])]
      obtain ⟨g, hg, hlen⟩ := ih rest (p :: acc) f
        (fun i hi => by
          have := hocc (i + 1) (by simpa using Nat.succ_lt_succ hi)
          simpa [List.cons_append] using this)
        (by simp at hf ⊢; omega)
      exact ⟨g, by rw [hg]; simp, hlen⟩

theorem pySplit_single (sep : List Char) (hs : sep ≠ []) (pre mid : List Char)
    (hpre : ∀ i, i < pre.length → sep.isPrefixOf ((pre ++ sep ++ mid).drop i) = false)
    (hmid : containsSub sep mid = false) :
    pySplit sep (pre ++ sep ++ mid) = [pre, mid] := by
  obtain ⟨g, hg, _⟩ := splitOnGo_first sep hs pre mid [] (pre ++ sep ++ mid).length
    hpre le_rfl
  rw [pySplit, hg, splitOnGo_no_occurrence sep mid g [] hmid]
  simp

theorem pySplit_double (sep : List Char) (hs : sep ≠ [])
    (pre mid1 mid2 : List Char)
    (hpre : ∀ i, i < pre.length →
      sep.isPrefixOf ((pre ++ sep ++ (mid1 ++ sep ++ mid2)).drop i) = false)
    (hmid1 : ∀ i, i < mid1.length →
      sep.isPrefixOf ((mid1 ++ sep ++ mid2).drop i) = false) :
    ∃ tail, pySplit sep (pre ++ sep ++ (mid1 ++ sep ++ mid2)) =
      pre :: mid1 :: tail := by
  obtain ⟨g, hg, hglen⟩ := splitOnGo_first sep hs pre (mid1 ++ sep ++ mid2) []
    (pre ++ sep ++ (mid1 ++ sep ++ mid2)).length hpre le_rfl
  obtain ⟨g', hg', _⟩ := splitOnGo_first sep hs mid1 mid2 [] g hmid1 hglen
  exact ⟨splitOnGo sep g' mid2 [], by rw [pySplit, hg, hg']; simp⟩

/-! ## Claim theorems -/

/-! ## Helper lemmas: shape of the batch stage-1 output -/

theorem stage1_foldl_acc (first retry : String → Option Resp) :
    ∀ (models : List String) (acc : List S1Record),
    models.foldl (fun acc model =>
      match first model with
      | some r => acc ++ [firstAttemptRecord model r]
      | none =>
        match retry model with
        | some r2 => acc ++ [placeholderRecord model, secondAttemptRecord model r2]
        | none => acc ++ [placeholderRecord model]) acc =
      acc ++ models.flatMap (perModelRecords first retry) := by
  intro models
  induction models with
  | nil => intro acc; simp
  | cons m t ih =>
    intro acc
    have hbody :
        (match first m with
         | some r => acc ++ [firstAttemptRecord m r]
         | none =>
           match retry m with
           | some r2 => acc ++ [placeholderRecord m, secondAttemptRecord m r2]
           | none => acc ++ [placeholderRecord m]) =
        acc ++ perModelRecords first retry m := by
      unfold perModelRecords
      cases first m with
      | some r => rfl
      | none => cases retry m <;> rfl
    simp only [List.foldl_cons, hbody, ih, List.flatMap_cons, List.append_assoc]

theorem stage1_eq_flatMap (models : List String) (first retry : String → Option Resp) :
    stage1_collect_responses models first retry =
      models.flatMap (perModelRecords first retry) := by
  unfold stage1_collect_responses
  simpa using stage1_foldl_acc first retry models []

theorem perModel_length_pos (first retry : String → Option Resp) (m : String) :
    1 ≤ (perModelRecords first retry m).length := by
  unfold perModelRecords
  cases first m with
  | some r => simp
  | none => cases retry m <;> simp

theorem perModel_length_le (first retry : String → Option Resp) (m : String) :
    (perModelRecords first retry m).length ≤ 2 := by
  unfold perModelRecords
  cases first m with
  | some r => simp
  | none => cases retry m <;> simp

theorem perModel_length_eq_two_iff (first retry : String → Option Resp) (m : String) :
    (perModelRecords first retry m).length = 2 ↔
      first m = none ∧ retry m ≠ none := by
  unfold perModelRecords
  cases first m with
  | some r => simp
  | none => cases retry m <;> simp

theorem stage1_length_le (models : List String) (first retry : String → Option Resp) :
    (stage1_collect_responses models first retry).length ≤ 2 * models.length := by
  rw [stage1_eq_flatMap]
  induction models with
  | nil => simp
  | cons m t ih =>
    simp only [List.flatMap_cons, List.length_append, List.length_cons]
    have := perModel_length_le first retry m
    omega

theorem stage1_length_ge (models : List String) (first retry : String → Option Resp) :
    models.length ≤ (stage1_collect_responses models first retry).length := by
  rw [stage1_eq_flatMap]
  induction models with
  | nil => simp
  | cons m t ih =>
    simp only [List.flatMap_cons, List.length_append, List.length_cons]
    have := perModel_length_pos first retry m
    omega

theorem stage1_length_eq_double_iff (models : List String)
    (first retry : String → Option Resp) :
    (stage1_collect_responses models first retry).length = 2 * models.length ↔
      ∀ m ∈ models, first m = none ∧ retry m ≠ none := by
  rw [stage1_eq_flatMap]
  induction models with
  | nil => simp
  | cons m t ih =>
    simp only [List.flatMap_cons, List.length_append, List.length_cons, List.mem_cons]
    constructor
    · intro h
      have h1 := perModel_length_le first retry m
      have h2 : (t.flatMap (perModelRecords first retry)).length ≤ 2 * t.length := by
        simpa [stage1_eq_flatMap] using stage1_length_le t first retry
      have hm : (perModelRecords first retry m).length = 2 := by omega
      have ht : (t.flatMap (perModelRecords first retry)).length = 2 * t.length := by
        omega
      intro x hx
      rcases hx with hx | hx
      · exact hx ▸ (perModel_length_eq_two_iff first retry m).mp hm
      · exact (ih.mp ht) x hx
    · intro h
      have hm : (perModelRecords first retry m).length = 2 :=
        (perModel_length_eq_two_iff first retry m).mpr (h m (Or.inl rfl))
      have ht : (t.flatMap (perModelRecords first retry)).length = 2 * t.length :=
        ih.mpr (fun x hx => h x (Or.inr hx))
      omega

/-- C3: the stage-1 batch output is the concatenation, in original
candidate order, of each candidate's records: exactly one record for a
first-attempt success, the placeholder
`{response := "No response. Might retry.", elapsed_time := none}`
followed by the annotated second-attempt record for a candidate that
failed first and succeeded on retry, and only the placeholder for a
candidate failing both attempts; the output length lies in `[0, 2N]` and
equals `2N` exactly when every candidate fails first and succeeds on
retry. -/
theorem c3_stage1_output_shape (models : List String)
    (first retry : String → Option Resp) :
    stage1_collect_responses models first retry =
      models.flatMap (perModelRecords first retry) ∧
    (∀ m, perModelRecords first retry m =
      match first m with
      | some r => [firstAttemptRecord m r]
      | none =>
        match retry m with
        | some r2 => [placeholderRecord m, secondAttemptRecord m r2]
        | none => [placeholderRecord m]) ∧
    (∀ m, (placeholderRecord m).response = "No response. Might retry." ∧
      (placeholderRecord m).elapsed_time = none) ∧
    (stage1_collect_responses models first retry).length ≤ 2 * models.length ∧
    ((stage1_collect_responses models first retry).length = 2 * models.length ↔
      ∀ m ∈ models, first m = none ∧ retry m ≠ none) :=
  ⟨stage1_eq_flatMap models first retry, fun _ => rfl, fun _ => ⟨rfl, rfl⟩,
    stage1_length_le models first retry,
    stage1_length_eq_double_iff models first retry⟩

/-- C9: for a non-empty candidate set the stage-1 batch output has at
least one record per candidate, hence is never empty, so the
total-failure branch of `run_full_council` — which tests only list
emptiness — is taken exactly when the candidate set itself is empty. -/
theorem c9_failed_branch_only_when_no_candidates (models : List String)
    (first retry : String → Option Resp) :
    models.length ≤ (stage1_collect_responses models first retry).length ∧
    (run_full_council_failed (stage1_collect_responses models first retry) = true ↔
      models = []) := by
  refine ⟨stage1_length_ge models first retry, ?_⟩
  rw [run_full_council_failed, List.isEmpty_iff, ← List.length_eq_zero]
  have h1 := stage1_length_ge models first retry
  have h2 : models = [] ↔ models.length = 0 := by
    rw [List.length_eq_zero]
  constructor
  · intro h
    rw [h2]
    omega
  · intro h
    subst h
    rfl

/-- C1: evidence for the divergence between `run_full_council` and the
claimed (and comment-documented) FAILED condition.  With one active
candidate whose both attempts fail, the stage-1 output contains zero
non-placeholder entries — the claim's condition for
`COLLECTING_RESPONSES → FAILED` — yet the branch actually tests list
emptiness, the output is the single placeholder record, and the branch is
not taken, so the pipeline proceeds to stages 2 and 3 (with an empty
judge pool). -/
theorem c1_total_failure_branch_divergence :
    stage1_collect_responses ["model-a"] (fun _ => none) (fun _ => none) =
      [placeholderRecord "model-a"] ∧
    (stage1_collect_responses ["model-a"] (fun _ => none) (fun _ => none)).filter
      (fun r => r.response != placeholderResponse) = [] ∧
    run_full_council_failed
      (stage1_collect_responses ["model-a"] (fun _ => none) (fun _ => none)) =
      false ∧
    stage2_judges ["model-a"]
      (stage1_collect_responses ["model-a"] (fun _ => none) (fun _ => none)) = [] := by
  refine ⟨by decide, by decide, by decide, by decide⟩

/-- C2, counterexample: the claim states that the verdict section is
everything after the FIRST occurrence of the marker.  On the input
`"FINAL RANKING:FINAL RANKING:\n1. Response A"` everything after the first
occurrence is `"FINAL RANKING:\n1. Response A"`, whose numbered-list
matches are `["Response A"]`, so under the claim the parser would return
`["Response A"]`; the code actually returns `[]`, because Python's
`split` makes `parts[1]` the text between the first two occurrences
(here the empty string). -/
theorem c2_counterexample :
    parse_ranking_from_text "FINAL RANKING:FINAL RANKING:\n1. Response A" = [] ∧
    findNumbered ("FINAL RANKING:\n1. Response A").data = ["Response A"] ∧
    ([] : List String) ≠ ["Response A"] := by
  refine ⟨by decide, by decide, by decide⟩

/-- C2 (amended): if the marker occurs in the text, the verdict section
is the text between the marker's first occurrence and its next occurrence
(or the end of the text when it occurs only once) — not everything after
the first occurrence; within that section the parser returns the label
tokens of all numbered-list matches in order of appearance when any
exist, else all bare `Response X` occurrences in that section in order.
Conjunct one covers a unique occurrence (`text = pre ++ marker ++ mid`
with no occurrence starting in `pre` and none in `mid`); conjunct two
covers a repeated marker (`text = pre ++ marker ++ mid1 ++ marker ++
mid2` with no occurrence starting in `pre`, and `mid1` marker-free up to
the shown second occurrence), where only `mid1` is scanned. -/
theorem c2_verdict_section_amended :
    (∀ pre mid : List Char,
      (∀ i, i < pre.length →
        finalMarker.isPrefixOf ((pre ++ finalMarker ++ mid).drop i) = false) →
      containsSub finalMarker mid = false →
      parse_ranking_from_text (String.mk (pre ++ finalMarker ++ mid)) =
        if (findNumbered mid).isEmpty then findLabels mid else findNumbered mid) ∧
    (∀ pre mid1 mid2 : List Char,
      (∀ i, i < pre.length →
        finalMarker.isPrefixOf
          ((pre ++ finalMarker ++ (mid1 ++ finalMarker ++ mid2)).drop i) = false) →
      (∀ i, i < mid1.length →
        finalMarker.isPrefixOf ((mid1 ++ finalMarker ++ mid2).drop i) = false) →
      parse_ranking_from_text
          (String.mk (pre ++ finalMarker ++ (mid1 ++ finalMarker ++ mid2))) =
        if (findNumbered mid1).isEmpty then findLabels mid1 else findNumbered mid1) := by
  constructor
  · intro pre mid hpre hmid
    have hsplit := pySplit_single finalMarker (by decide) pre mid hpre hmid
    unfold parse_ranking_from_text
    rw [show (String.mk (pre ++ finalMarker ++ mid)).data =
      pre ++ finalMarker ++ mid from rfl]
    rw [containsSub_append_marker finalMarker pre mid (by decide), hsplit]
    simp [List.getD]
  · intro pre mid1 mid2 hpre hmid1
    obtain ⟨tail, hsplit⟩ :=
      pySplit_double finalMarker (by decide) pre mid1 mid2 hpre hmid1
    unfold parse_ranking_from_text
    rw [show (String.mk (pre ++ finalMarker ++ (mid1 ++ finalMarker ++ mid2))).data =
      pre ++ finalMarker ++ (mid1 ++ finalMarker ++ mid2) from rfl]
    rw [containsSub_append_marker finalMarker pre (mid1 ++ finalMarker ++ mid2)
      (by decide), hsplit]
    simp [List.getD]

/-- Witness for C2 (amended), at the concrete input
`"x FINAL RANKING:\n1. Response A"`. -/
theorem c2_verdict_section_amended_witness :
    parse_ranking_from_text
      (String.mk ("x ".data ++ finalMarker ++ "\n1. Response A".data)) =
      ["Response A"] := by
  have h := c2_verdict_section_amended.1 "x ".data "\n1. Response A".data
    (by decide) (by decide)
  rw [h]
  decide

/-! ## Helper lemmas: folded maximum -/

theorem le_foldl_max : ∀ (l : List ℚ) (a x : ℚ), (x = a ∨ x ∈ l) →
    x ≤ l.foldl max a := by
  intro l
  induction l with
  | nil =>
    intro a x h
    rcases h with h | h
    · exact h ▸ le_rfl
    · simp at h
  | cons d rest ih =>
    intro a x h
    simp only [List.foldl_cons]
    rcases h with h | h
    · exact le_trans (h ▸ le_max_left a d) (ih (max a d) (max a d) (Or.inl rfl))
    · rcases List.mem_cons.mp h with h1 | h2
      · exact le_trans (h1 ▸ le_max_right a d) (ih (max a d) (max a d) (Or.inl rfl))
      · exact ih (max a d) x (Or.inr h2)

theorem foldl_max_mem : ∀ (l : List ℚ) (a : ℚ),
    l.foldl max a = a ∨ l.foldl max a ∈ l := by
  intro l
  induction l with
  | nil => intro a; exact Or.inl rfl
  | cons d rest ih =>
    intro a
    simp only [List.foldl_cons, List.mem_cons]
    rcases ih (max a d) with h | h
    · rcases max_choice a d with hm | hm
      · exact Or.inl (h.trans hm)
      · exact Or.inr (Or.inl (h.trans hm))
    · exact Or.inr (Or.inr h)

/-- C4: when at least one candidate fails the first round, the retry
timeout equals `max(10, M)` where `M` is the maximum elapsed time among
first-round successes, or `120` when there are no successes; in
particular elapsed times `[5, 30]` give `30`, no successes give `120`,
and successes all below `10` give the floor `10`.  (Successful responses
always carry an elapsed time — `query_model` records one on every
success — so the maximum ranges over all first-round successes.) -/
theorem c4_retry_timeout (models : List String) (first : String → Option Resp) :
    ((∀ m ∈ models, first m = none) → retry_timeout models first = 120) ∧
    (∀ M, M ∈ successful_durations models first →
      (∀ d ∈ successful_durations models first, d ≤ M) →
      retry_timeout models first = max 10 M) ∧
    retry_timeout ["a", "b"]
      (fun m => if m = "a" then some ⟨"r1", some 5, none, none⟩
        else some ⟨"r2", some 30, none, none⟩) = 30 ∧
    retry_timeout ["a", "b"] (fun _ => none) = 120 ∧
    retry_timeout ["a", "b"]
      (fun m => if m = "a" then some ⟨"r1", some 5, none, none⟩
        else some ⟨"r2", some 7, none, none⟩) = 10 := by
  refine ⟨?_, ?_, by decide, by decide, by decide⟩
  · intro h
    have hds : successful_durations models first = [] := by
      rw [successful_durations, List.filterMap_eq_nil_iff]
      intro m hm
      rw [h m hm]
      rfl
    unfold retry_timeout
    rw [hds]
    decide
  · intro M hM hbound
    unfold retry_timeout
    cases hds : successful_durations models first with
    | nil => rw [hds] at hM; simp at hM
    | cons d rest =>
      rw [hds] at hM hbound
      have h1 : rest.foldl max d ≤ M := by
        rcases foldl_max_mem rest d with h | h
        · rw [h]; exact hbound d (List.mem_cons_self d rest)
        · exact hbound _ (List.mem_cons_of_mem d h)
      have h2 : M ≤ rest.foldl max d := by
        rcases List.mem_cons.mp hM with h | h
        · exact le_foldl_max rest d M (Or.inl h)
        · exact le_foldl_max rest d M (Or.inr h)
      show max (rest.foldl max d) 10 = max 10 M
      rw [le_antisymm h1 h2, max_comm]

/-- Witness for C4: the general maximum-case applied at the concrete
input with elapsed times `[5, 30]`. -/
theorem c4_retry_timeout_witness :
    retry_timeout ["a", "b"]
      (fun m => if m = "a" then some ⟨"r1", some 5, none, none⟩
        else some ⟨"r2", some 30, none, none⟩) = max 10 30 :=
  (c4_retry_timeout ["a", "b"]
    (fun m => if m = "a" then some ⟨"r1", some 5, none, none⟩
      else some ⟨"r2", some 30, none, none⟩)).2.1 30 (by decide) (by decide)

/-! ## Helper lemmas: the positions dict and the aggregate -/

theorem alookup_appendPos_self : ∀ (mp : List (String × List Nat)) (k : String)
    (p : Nat), alookup k (appendPos k p mp) =
      some ((alookup k mp).getD [] ++ [p]) := by
  intro mp
  induction mp with
  | nil => intro k p; simp [appendPos, alookup]
  | cons x t ih =>
    intro k p
    obtain ⟨k', ps⟩ := x
    by_cases h : k' = k
    · subst h
      simp [appendPos, alookup]
    · simp [appendPos, alookup, h, ih]

theorem alookup_appendPos_ne : ∀ (mp : List (String × List Nat)) (k : String)
    (p : Nat) (w : String), w ≠ k →
    alookup w (appendPos k p mp) = alookup w mp := by
  intro mp
  induction mp with
  | nil =>
    intro k p w hw
    simp [appendPos, alookup, Ne.symm hw]
  | cons x t ih =>
    intro k p w hw
    obtain ⟨k', ps⟩ := x
    by_cases h : k' = k
    · subst h
      simp [appendPos, alookup, Ne.symm hw]
    · simp only [appendPos, if_neg h, alookup]
      by_cases h2 : k' = w
      · simp [h2]
      · simp only [if_neg h2]
        exact ih k p w hw

theorem optAppend_nil (o : Option (List Nat)) : optAppend o [] = o := by
  cases o <;> simp [optAppend]

theorem optAppend_assoc (o : Option (List Nat)) (a b : List Nat) :
    optAppend (optAppend o a) b = optAppend o (a ++ b) := by
  cases o with
  | some ps => simp [optAppend]
  | none =>
    cases a with
    | nil => simp [optAppend]
    | cons x t => simp [optAppend]

theorem addPositions_cons (l2m : List (String × String))
    (mp : List (String × List Nat)) (pl : Nat × String)
    (rest : List (Nat × String)) :
    addPositions l2m mp (pl :: rest) =
      addPositions l2m
        (match alookup pl.2 l2m with
         | some name => appendPos name pl.1 mp
         | none => mp) rest := rfl

theorem alookup_addPositions (l2m : List (String × String)) :
    ∀ (pairs : List (Nat × String)) (mp : List (String × List Nat)) (w : String),
    alookup w (addPositions l2m mp pairs) =
      optAppend (alookup w mp) (pairs.filterMap (fun pl =>
        if alookup pl.2 l2m = some w then some pl.1 else none)) := by
  intro pairs
  induction pairs with
  | nil => intro mp w; simp [addPositions, optAppend_nil]
  | cons pl rest ih =>
    intro mp w
    rw [addPositions_cons]
    cases hr : alookup pl.2 l2m with
    | none =>
      simp only [hr]
      rw [ih]
      simp [hr]
    | some name =>
      simp only [hr]
      rw [ih]
      by_cases hw : w = name
      · subst hw
        rw [alookup_appendPos_self]
        cases halk : alookup w mp with
        | some ps => simp [optAppend, halk, hr]
        | none => simp [optAppend, halk, hr]
      · rw [alookup_appendPos_ne mp name pl.1 w hw]
        simp [hr, Ne.symm hw]

theorem alookup_model_positions (l2m : List (String × String)) :
    ∀ (stage2 : List S2Record) (mp : List (String × List Nat)) (w : String),
    alookup w (stage2.foldl (fun mp j =>
      addPositions l2m mp (List.enumFrom 1 (parse_ranking_from_text j.ranking))) mp) =
      optAppend (alookup w mp) (positionsOf stage2 l2m w) := by
  intro stage2
  induction stage2 with
  | nil => intro mp w; simp [positionsOf, optAppend_nil]
  | cons j rest ih =>
    intro mp w
    rw [List.foldl_cons, ih, alookup_addPositions, optAppend_assoc]
    simp [positionsOf, posInJudgment]

theorem alookup_model_positions_none_start (l2m : List (String × String))
    (stage2 : List S2Record) (w : String) :
    alookup w (model_positions stage2 l2m) =
      if (positionsOf stage2 l2m w).isEmpty then none
      else some (positionsOf stage2 l2m w) := by
  rw [model_positions, alookup_model_positions]
  rfl

theorem appendPos_keys_sub : ∀ (mp : List (String × List Nat)) (k : String)
    (p : Nat) (y : String), y ∈ (appendPos k p mp).map Prod.fst →
    y = k ∨ y ∈ mp.map Prod.fst := by
  intro mp
  induction mp with
  | nil => intro k p y h; simpa [appendPos] using h
  | cons x t ih =>
    intro k p y h
    obtain ⟨k', ps⟩ := x
    by_cases hk : k' = k
    · subst hk
      rw [show appendPos k' p ((k', ps) :: t) = (k', ps ++ [p]) :: t from by
        show (if k' = k' then (k', ps ++ [p]) :: t
          else (k', ps) :: appendPos k' p t) = (k', ps ++ [p]) :: t
        rw [if_pos rfl]] at h
      simp only [List.map_cons, List.mem_cons] at h ⊢
      tauto
    · simp only [appendPos, if_neg hk, List.map_cons, List.mem_cons] at h
      rcases h with h | h
      · exact Or.inr (by simp [h])
      · rcases ih k p y h with h2 | h2
        · exact Or.inl h2
        · exact Or.inr (by simp [h2])

theorem appendPos_keys_nodup : ∀ (mp : List (String × List Nat)) (k : String)
    (p : Nat), (mp.map Prod.fst).Nodup →
    ((appendPos k p mp).map Prod.fst).Nodup := by
  intro mp
  induction mp with
  | nil => intro k p _; simp [appendPos]
  | cons x t ih =>
    intro k p hnd
    obtain ⟨k', ps⟩ := x
    simp only [List.map_cons, List.nodup_cons] at hnd
    by_cases hk : k' = k
    · subst hk
      simpa [appendPos, List.nodup_cons] using hnd
    · simp only [appendPos, if_neg hk, List.map_cons, List.nodup_cons]
      refine ⟨fun hmem => ?_, ih k p hnd.2⟩
      rcases appendPos_keys_sub t k p k' hmem with h | h
      · exact hk h
      · exact hnd.1 h

theorem alookup_mem_values {α : Type} : ∀ (l : List (String × α)) (x : String)
    (v : α), alookup x l = some v → v ∈ l.map Prod.snd := by
  intro l
  induction l with
  | nil => intro x v h; simp [alookup] at h
  | cons y t ih =>
    intro x v h
    obtain ⟨k', v'⟩ := y
    by_cases hk : k' = x
    · simp only [alookup, if_pos hk, Option.some.injEq] at h
      simp [h]
    · simp only [alookup, if_neg hk] at h
      simp [ih x v h]

theorem addPositions_keys_sub (l2m : List (String × String)) :
    ∀ (pairs : List (Nat × String)) (mp : List (String × List Nat)) (y : String),
    y ∈ (addPositions l2m mp pairs).map Prod.fst →
    y ∈ l2m.map Prod.snd ∨ y ∈ mp.map Prod.fst := by
  intro pairs
  induction pairs with
  | nil => intro mp y h; exact Or.inr h
  | cons pl rest ih =>
    intro mp y h
    rw [addPositions_cons] at h
    cases hr : alookup pl.2 l2m with
    | none =>
      rw [hr] at h
      exact ih mp y h
    | some name =>
      rw [hr] at h
      rcases ih _ y h with h2 | h2
      · exact Or.inl h2
      · rcases appendPos_keys_sub mp name pl.1 y h2 with h3 | h3
        · exact Or.inl (h3 ▸ alookup_mem_values l2m pl.2 name hr)
        · exact Or.inr h3

theorem addPositions_keys_nodup (l2m : List (String × String)) :
    ∀ (pairs : List (Nat × String)) (mp : List (String × List Nat)),
    (mp.map Prod.fst).Nodup →
    ((addPositions l2m mp pairs).map Prod.fst).Nodup := by
  intro pairs
  induction pairs with
  | nil => intro mp h; exact h
  | cons pl rest ih =>
    intro mp hnd
    rw [addPositions_cons]
    cases hr : alookup pl.2 l2m with
    | none => simp only [hr]; exact ih mp hnd
    | some name =>
      simp only [hr]
      exact ih _ (appendPos_keys_nodup mp name pl.1 hnd)

theorem model_positions_keys_sub (stage2 : List S2Record)
    (l2m : List (String × String)) :
    ∀ y, y ∈ (model_positions stage2 l2m).map Prod.fst →
      y ∈ l2m.map Prod.snd := by
  rw [model_positions]
  induction stage2 using List.reverseRecOn with
  | nil => intro y h; simp at h
  | append_singleton rest j ih =>
    intro y h
    rw [List.foldl_append, List.foldl_cons, List.foldl_nil] at h
    rcases addPositions_keys_sub l2m _ _ y h with h2 | h2
    · exact h2
    · exact ih y h2

theorem model_positions_keys_nodup (stage2 : List S2Record)
    (l2m : List (String × String)) :
    ((model_positions stage2 l2m).map Prod.fst).Nodup := by
  rw [model_positions]
  induction stage2 using List.reverseRecOn with
  | nil => simp
  | append_singleton rest j ih =>
    rw [List.foldl_append, List.foldl_cons, List.foldl_nil]
    exact addPositions_keys_nodup l2m _ _ ih

theorem alookup_of_mem_nodup {α : Type} : ∀ (mp : List (String × α)) (k : String)
    (ps : α), (mp.map Prod.fst).Nodup → (k, ps) ∈ mp → alookup k mp = some ps := by
  intro mp
  induction mp with
  | nil => intro k ps _ h; simp at h
  | cons x t ih =>
    intro k ps hnd hmem
    obtain ⟨k', v'⟩ := x
    simp only [List.map_cons, List.nodup_cons] at hnd
    rcases List.mem_cons.mp hmem with h | h
    · have h1 : k' = k := by
        have := congrArg Prod.fst h
        simpa using this.symm
      have h2 : v' = ps := by
        have := congrArg Prod.snd h
        simpa using this.symm
      show (if k' = k then some v' else alookup k t) = some ps
      rw [if_pos h1, h2]
    · have hne : k' ≠ k := by
        intro he
        subst he
        exact hnd.1 (by simpa using ⟨ps, h⟩)
      show (if k' = k then some v' else alookup k t) = some ps
      rw [if_neg hne]
      exact ih k ps hnd.2 h

theorem foldl_append_flatMap {α β : Type} (g : α → List β) :
    ∀ (l : List α) (init : List β),
    l.foldl (fun acc x => acc ++ g x) init = init ++ l.flatMap g := by
  intro l
  induction l with
  | nil => intro init; simp
  | cons x t ih => intro init; simp [ih, List.append_assoc]

theorem mem_insertLe {α : Type} (le : α → α → Bool) (x a : α) :
    ∀ l : List α, a ∈ insertLe le x l ↔ a = x ∨ a ∈ l := by
  intro l
  induction l with
  | nil => simp [insertLe]
  | cons y t ih =>
    by_cases h : le x y
    · simp [insertLe, h, List.mem_cons]
    · have hstep : insertLe le x (y :: t) = y :: insertLe le x t := by
        show (if le x y then x :: y :: t else y :: insertLe le x t) =
          y :: insertLe le x t
        rw [if_neg h]
      rw [hstep]
      simp only [List.mem_cons, ih]
      tauto

theorem mem_stableSort {α : Type} (le : α → α → Bool) (a : α) :
    ∀ l : List α, a ∈ stableSort le l ↔ a ∈ l := by
  intro l
  induction l with
  | nil => simp [stableSort]
  | cons x t ih =>
    simp only [stableSort, mem_insertLe, List.mem_cons, ih]

theorem mem_aggregate_iff (stage2 : List S2Record)
    (l2m : List (String × String)) (stage1 : List S1Record)
    (e : AggregateEntry) :
    e ∈ calculate_aggregate_rankings stage2 l2m stage1 ↔
      ∃ x ∈ model_positions stage2 l2m,
        x.2.isEmpty = false ∧ e = aggregateEntryOf stage2 stage1 x := by
  unfold calculate_aggregate_rankings
  rw [mem_stableSort]
  rw [show (model_positions stage2 l2m).foldl (fun agg x =>
      if x.2.isEmpty then agg
      else agg ++ [aggregateEntryOf stage2 stage1 x]) [] =
    (model_positions stage2 l2m).foldl (fun agg x =>
      agg ++ (if x.2.isEmpty then []
        else [aggregateEntryOf stage2 stage1 x])) [] from by
    congr 1
    funext agg x
    by_cases hx : x.2.isEmpty <;> simp [hx]]
  rw [foldl_append_flatMap]
  simp only [List.nil_append, List.mem_flatMap]
  constructor
  · rintro ⟨x, hx, hmem⟩
    by_cases he : x.2.isEmpty
    · rw [if_pos he] at hmem
      simp at hmem
    · rw [if_neg he] at hmem
      exact ⟨x, hx, by simpa using he, List.mem_singleton.mp hmem⟩
  · rintro ⟨x, hx, he, rfl⟩
    exact ⟨x, hx, by simp [he]⟩

theorem mem_of_alookup {α : Type} : ∀ (l : List (String × α)) (k : String)
    (v : α), alookup k l = some v → (k, v) ∈ l := by
  intro l
  induction l with
  | nil => intro k v h; simp [alookup] at h
  | cons x t ih =>
    intro k v h
    obtain ⟨k', v'⟩ := x
    by_cases hk : k' = k
    · subst hk
      simp only [alookup] at h
      rw [if_pos trivial] at h
      rw [Option.some.inj h]
      exact List.mem_cons_self _ _
    · simp only [alookup, if_neg hk] at h
      exact List.mem_cons_of_mem _ (ih k v h)

theorem aggregateEntry_mem_of_positions (stage2 : List S2Record)
    (l2m : List (String × String)) (stage1 : List S1Record) (w : String)
    (h : positionsOf stage2 l2m w ≠ []) :
    aggregateEntryOf stage2 stage1 (w, positionsOf stage2 l2m w) ∈
      calculate_aggregate_rankings stage2 l2m stage1 := by
  have hlk : alookup w (model_positions stage2 l2m) =
      some (positionsOf stage2 l2m w) := by
    rw [alookup_model_positions_none_start,
      if_neg (by simpa [List.isEmpty_iff] using h)]
  exact (mem_aggregate_iff stage2 l2m stage1 _).mpr
    ⟨(w, positionsOf stage2 l2m w), mem_of_alookup _ w _ hlk,
      by simpa [List.isEmpty_iff] using h, rfl⟩

theorem enumFrom_eq_range_map : ∀ (l : List String) (k : Nat),
    List.enumFrom k l =
      (List.range l.length).map (fun i => (k + i, l.getD i "")) := by
  intro l
  induction l with
  | nil => intro k; rfl
  | cons a t ih =>
    intro k
    rw [List.enumFrom, ih (k + 1)]
    rw [List.length_cons, List.range_succ_eq_map]
    rw [List.map_cons, List.map_map]
    refine congrArg₂ List.cons (by simp) ?_
    refine congrArg (fun f => List.map f (List.range t.length)) ?_
    funext i
    simp [Nat.add_comm, Nat.add_assoc, Nat.add_left_comm]

theorem posInJudgment_index_form (l2m : List (String × String)) (w : String)
    (j : S2Record) :
    posInJudgment l2m w j =
      (List.range (parse_ranking_from_text j.ranking).length).filterMap (fun i =>
        if alookup ((parse_ranking_from_text j.ranking).getD i "") l2m = some w
        then some (i + 1) else none) := by
  rw [posInJudgment, enumFrom_eq_range_map _ 1, List.filterMap_map]
  refine congrArg (fun f => List.filterMap f
    (List.range (parse_ranking_from_text j.ranking).length)) ?_
  funext i
  simp [Function.comp, Nat.add_comm]

/-- C6: the aggregate assigns each worker whose resolved position list is
non-empty an entry with `average_rank = round2(mean positions)` and
`rankings_count = len positions` (completeness: such a worker is always
present in the output, second conjunct), and every entry that appears
carries exactly those values for its worker (first conjunct); unknown
labels resolve to nothing and are dropped without error (every output
worker is in the label map's range); a worker whose resolved position
list is empty is absent from the output; and on the concrete instance
with judges `J1 → [B, A]`, `J2 → [A, B]` and label map `A → m1, B → m2`,
both workers appear with average rank `3/2` and rankings count `2` (and
an unknown label `Z` in a ranking is silently dropped). -/
theorem c6_aggregate_rankings (stage2 : List S2Record)
    (l2m : List (String × String)) (stage1 : List S1Record) :
    (∀ e ∈ calculate_aggregate_rankings stage2 l2m stage1,
      positionsOf stage2 l2m e.model ≠ [] ∧
      e.average_rank = round2
        (((positionsOf stage2 l2m e.model).map (fun p => (p : ℚ))).sum /
          (positionsOf stage2 l2m e.model).length) ∧
      e.rankings_count = (positionsOf stage2 l2m e.model).length ∧
      e.model ∈ l2m.map Prod.snd) ∧
    (∀ w, positionsOf stage2 l2m w ≠ [] →
      ∃ e ∈ calculate_aggregate_rankings stage2 l2m stage1,
        e.model = w ∧
        e.average_rank = round2
          (((positionsOf stage2 l2m w).map (fun p => (p : ℚ))).sum /
            (positionsOf stage2 l2m w).length) ∧
        e.rankings_count = (positionsOf stage2 l2m w).length) ∧
    (∀ w, positionsOf stage2 l2m w = [] →
      ∀ e ∈ calculate_aggregate_rankings stage2 l2m stage1, e.model ≠ w) ∧
    calculate_aggregate_rankings
      [⟨"J1", "FINAL RANKING:\n1. Response B\n2. Response A", [], none, none⟩,
       ⟨"J2", "FINAL RANKING:\n1. Response A\n2. Response B", [], none, none⟩]
      [("Response A", "m1"), ("Response B", "m2")] [] =
      [⟨"m2", 3 / 2, 2, 0, 0⟩, ⟨"m1", 3 / 2, 2, 0, 0⟩] ∧
    calculate_aggregate_rankings
      [⟨"J1", "FINAL RANKING:\n1. Response Z\n2. Response A", [], none, none⟩]
      [("Response A", "m1")] [] = [⟨"m1", 2, 1, 0, 0⟩] := by
  have main : ∀ e ∈ calculate_aggregate_rankings stage2 l2m stage1,
      positionsOf stage2 l2m e.model ≠ [] ∧
      e.average_rank = round2
        (((positionsOf stage2 l2m e.model).map (fun p => (p : ℚ))).sum /
          (positionsOf stage2 l2m e.model).length) ∧
      e.rankings_count = (positionsOf stage2 l2m e.model).length ∧
      e.model ∈ l2m.map Prod.snd := by
    intro e he
    obtain ⟨x, hx, hne, rfl⟩ := (mem_aggregate_iff stage2 l2m stage1 e).mp he
    obtain ⟨k, ps⟩ := x
    have hkey : alookup k (model_positions stage2 l2m) = some ps :=
      alookup_of_mem_nodup _ k ps (model_positions_keys_nodup stage2 l2m) hx
    rw [alookup_model_positions_none_start] at hkey
    have hpos : positionsOf stage2 l2m k = ps := by
      by_cases hemp : (positionsOf stage2 l2m k).isEmpty
      · rw [if_pos hemp] at hkey
        exact absurd hkey (by simp)
      · rw [if_neg hemp] at hkey
        exact Option.some.inj hkey
    have hmodel : (aggregateEntryOf stage2 stage1 (k, ps)).model = k := rfl
    rw [hmodel, hpos]
    refine ⟨by simpa using hne, rfl, rfl, ?_⟩
    exact model_positions_keys_sub stage2 l2m k
      (List.mem_map_of_mem Prod.fst hx)
  refine ⟨main, ?_, ?_, by with_unfolding_all rfl, by with_unfolding_all rfl⟩
  · intro w hw
    exact ⟨aggregateEntryOf stage2 stage1 (w, positionsOf stage2 l2m w),
      aggregateEntry_mem_of_positions stage2 l2m stage1 w hw, rfl, rfl, rfl⟩
  · intro w hw e he hmodel
    have := (main e he).1
    rw [hmodel] at this
    exact this hw

/-- Witness for C6: the completeness conjunct applied to the concrete
two-judge instance — worker `m1` has a non-empty position list, so an
entry for it with the claimed values is present in the aggregate. -/
theorem c6_aggregate_rankings_witness :
    ∃ e ∈ calculate_aggregate_rankings
      [⟨"J1", "FINAL RANKING:\n1. Response B\n2. Response A", [], none, none⟩,
       ⟨"J2", "FINAL RANKING:\n1. Response A\n2. Response B", [], none, none⟩]
      [("Response A", "m1"), ("Response B", "m2")] [],
      e.model = "m1" ∧
      e.average_rank = round2
        (((positionsOf
            [⟨"J1", "FINAL RANKING:\n1. Response B\n2. Response A", [], none, none⟩,
             ⟨"J2", "FINAL RANKING:\n1. Response A\n2. Response B", [], none, none⟩]
            [("Response A", "m1"), ("Response B", "m2")] "m1").map
              (fun p => (p : ℚ))).sum /
          (positionsOf
            [⟨"J1", "FINAL RANKING:\n1. Response B\n2. Response A", [], none, none⟩,
             ⟨"J2", "FINAL RANKING:\n1. Response A\n2. Response B", [], none, none⟩]
            [("Response A", "m1"), ("Response B", "m2")] "m1").length) ∧
      e.rankings_count = (positionsOf
        [⟨"J1", "FINAL RANKING:\n1. Response B\n2. Response A", [], none, none⟩,
         ⟨"J2", "FINAL RANKING:\n1. Response A\n2. Response B", [], none, none⟩]
        [("Response A", "m1"), ("Response B", "m2")] "m1").length :=
  (c6_aggregate_rankings
    [⟨"J1", "FINAL RANKING:\n1. Response B\n2. Response A", [], none, none⟩,
     ⟨"J2", "FINAL RANKING:\n1. Response A\n2. Response B", [], none, none⟩]
    [("Response A", "m1"), ("Response B", "m2")] []).2.1 "m1" (by decide)

/-! ## Helper lemmas: the streaming collector and its majority event -/

theorem streamStep_none (models : List String) (mm : Bool) (s : StreamState)
    (m : String) :
    streamStep models mm s m none =
      (⟨s.results, s.completed_count + 1, s.majority_yielded⟩,
       [SEvent.model_failed m (s.completed_count + 1) models.length]) := rfl

theorem streamStep_some (models : List String) (mm : Bool) (s : StreamState)
    (m : String) (r : Resp) :
    streamStep models mm s m (some r) =
      if mm && !s.majority_yielded &&
          decide (majority_threshold models.length ≤
            (dictInsert m (firstAttemptRecord m r) s.results).length) then
        (⟨dictInsert m (firstAttemptRecord m r) s.results,
            s.completed_count + 1, true⟩,
         [SEvent.model_complete m (firstAttemptRecord m r)
            (s.completed_count + 1) models.length,
          SEvent.majority_reached
            (models.filterMap (fun m' =>
              alookup m' (dictInsert m (firstAttemptRecord m r) s.results)))
            (dictInsert m (firstAttemptRecord m r) s.results).length
            models.length])
      else
        (⟨dictInsert m (firstAttemptRecord m r) s.results,
            s.completed_count + 1, s.majority_yielded⟩,
         [SEvent.model_complete m (firstAttemptRecord m r)
            (s.completed_count + 1) models.length]) := rfl

theorem streamRun_cons (models : List String) (mm : Bool) (s : StreamState)
    (m : String) (resp : Option Resp) (rest : List (String × Option Resp)) :
    streamRun models mm s ((m, resp) :: rest) =
      ((streamRun models mm (streamStep models mm s m resp).1 rest).1,
       (streamStep models mm s m resp).2 ++
         (streamRun models mm (streamStep models mm s m resp).1 rest).2) := rfl

theorem dictInsert_fresh : ∀ (d : List (String × S1Record)) (k : String)
    (v : S1Record), k ∉ d.map Prod.fst → dictInsert k v d = d ++ [(k, v)] := by
  intro d
  induction d with
  | nil => intro k v _; rfl
  | cons x t ih =>
    intro k v hk
    obtain ⟨k', v'⟩ := x
    simp only [List.map_cons, List.mem_cons] at hk
    push_neg at hk
    show (if k' = k then (k', v) :: t else (k', v') :: dictInsert k v t) = _
    rw [if_neg (fun h => hk.1 h.symm), ih k v hk.2]
    rfl

theorem successEntries_cons_none (m : String)
    (rest : List (String × Option Resp)) :
    successEntries ((m, none) :: rest) = successEntries rest := rfl

theorem successEntries_cons_some (m : String) (r : Resp)
    (rest : List (String × Option Resp)) :
    successEntries ((m, some r) :: rest) =
      (m, firstAttemptRecord m r) :: successEntries rest := rfl

theorem streamRun_yielded : ∀ (arrivals : List (String × Option Resp))
    (models : List String) (s : StreamState), s.majority_yielded = true →
    (streamRun models true s arrivals).2.filter SEvent.isMajority = [] ∧
    (streamRun models true s arrivals).1.majority_yielded = true := by
  intro arrivals
  induction arrivals with
  | nil => intro models s hs; exact ⟨rfl, hs⟩
  | cons a rest ih =>
    intro models s hs
    obtain ⟨m, resp⟩ := a
    rw [streamRun_cons]
    cases resp with
    | none =>
      rw [streamStep_none]
      have h := ih models ⟨s.results, s.completed_count + 1, s.majority_yielded⟩ hs
      simp only [List.filter_append]
      exact ⟨by simp [h.1, SEvent.isMajority], h.2⟩
    | some r =>
      rw [streamStep_some]
      have hcond : (true && !s.majority_yielded &&
          decide (majority_threshold models.length ≤
            (dictInsert m (firstAttemptRecord m r) s.results).length)) = false := by
        rw [hs]
        rfl
      rw [hcond]
      rw [if_neg (by simp)]
      have h := ih models ⟨dictInsert m (firstAttemptRecord m r) s.results,
        s.completed_count + 1, s.majority_yielded⟩ hs
      simp only [List.filter_append]
      exact ⟨by simp [h.1, SEvent.isMajority], h.2⟩

theorem streamRun_results : ∀ (arrivals : List (String × Option Resp))
    (models : List String) (mm : Bool) (s : StreamState),
    (∀ p ∈ arrivals, p.1 ∉ s.results.map Prod.fst) →
    (arrivals.map Prod.fst).Nodup →
    (streamRun models mm s arrivals).1.results =
      s.results ++ successEntries arrivals := by
  intro arrivals
  induction arrivals with
  | nil => intro models mm s _ _; simp [streamRun, successEntries]
  | cons a rest ih =>
    intro models mm s hfresh hnd
    obtain ⟨m, resp⟩ := a
    rw [streamRun_cons]
    simp only [List.map_cons, List.nodup_cons] at hnd
    cases resp with
    | none =>
      rw [streamStep_none, successEntries_cons_none]
      exact ih models mm _ (fun p hp => hfresh p (List.mem_cons_of_mem _ hp)) hnd.2
    | some r =>
      have hm : m ∉ s.results.map Prod.fst :=
        hfresh (m, some r) (List.mem_cons_self _ _)
      have hins : dictInsert m (firstAttemptRecord m r) s.results =
          s.results ++ [(m, firstAttemptRecord m r)] :=
        dictInsert_fresh s.results m (firstAttemptRecord m r) hm
      have hres : (streamStep models mm s m (some r)).1.results =
          s.results ++ [(m, firstAttemptRecord m r)] := by
        rw [streamStep_some]
        split <;> simp [hins]
      have hfresh' : ∀ p ∈ rest,
          p.1 ∉ ((streamStep models mm s m (some r)).1.results).map Prod.fst := by
        intro p hp
        rw [hres]
        simp only [List.map_append, List.mem_append]
        rintro (h | h)
        · exact hfresh p (List.mem_cons_of_mem _ hp) h
        · have : p.1 = m := by simpa using h
          exact hnd.1 (this ▸ List.mem_map_of_mem Prod.fst hp)
      rw [successEntries_cons_some]
      rw [ih models mm _ hfresh' hnd.2, hres]
      simp

theorem streamRun_majority : ∀ (arrivals : List (String × Option Resp))
    (models : List String) (s : StreamState),
    1 ≤ majority_threshold models.length →
    s.majority_yielded = false →
    s.results.length < majority_threshold models.length →
    (∀ p ∈ arrivals, p.1 ∉ s.results.map Prod.fst) →
    (arrivals.map Prod.fst).Nodup →
    (streamRun models true s arrivals).2.filter SEvent.isMajority =
      (if majority_threshold models.length ≤
          s.results.length + (successEntries arrivals).length
       then [SEvent.majority_reached
          (models.filterMap (fun m' => alookup m'
            (s.results ++ (successEntries arrivals).take
              (majority_threshold models.length - s.results.length))))
          (majority_threshold models.length) models.length]
       else []) := by
  intro arrivals
  induction arrivals with
  | nil =>
    intro models s _ _ hlt _ _
    rw [if_neg (by simp [successEntries]; omega)]
    rfl
  | cons a rest ih =>
    intro models s hthr hy hlt hfresh hnd
    obtain ⟨m, resp⟩ := a
    rw [streamRun_cons]
    simp only [List.map_cons, List.nodup_cons] at hnd
    cases resp with
    | none =>
      rw [streamStep_none, successEntries_cons_none]
      rw [List.filter_append]
      rw [show (List.filter SEvent.isMajority
        [SEvent.model_failed m (s.completed_count + 1) models.length]) = []
        from rfl]
      rw [List.nil_append]
      exact ih models ⟨s.results, s.completed_count + 1, s.majority_yielded⟩ hthr hy
        hlt (fun p hp => hfresh p (List.mem_cons_of_mem _ hp)) hnd.2
    | some r =>
      have hm : m ∉ s.results.map Prod.fst :=
        hfresh (m, some r) (List.mem_cons_self _ _)
      have hins : dictInsert m (firstAttemptRecord m r) s.results =
          s.results ++ [(m, firstAttemptRecord m r)] :=
        dictInsert_fresh s.results m (firstAttemptRecord m r) hm
      rw [streamStep_some, successEntries_cons_some]
      by_cases hg : majority_threshold models.length ≤ s.results.length + 1
      · -- the threshold is reached exactly now
        have hcond : (true && !s.majority_yielded &&
            decide (majority_threshold models.length ≤
              (dictInsert m (firstAttemptRecord m r) s.results).length)) = true := by
          rw [hy, hins]
          simp
          omega
        rw [hcond, if_pos rfl]
        have hyld := streamRun_yielded rest models
          ⟨dictInsert m (firstAttemptRecord m r) s.results,
            s.completed_count + 1, true⟩ rfl
        rw [List.filter_append, hyld.1, List.append_nil]
        have hlen : (dictInsert m (firstAttemptRecord m r) s.results).length =
            majority_threshold models.length := by
          rw [hins]
          simp
          omega
        have htake : majority_threshold models.length - s.results.length = 1 := by
          omega
        rw [if_pos (by
          rw [show ((m, firstAttemptRecord m r) :: successEntries rest).length =
            (successEntries rest).length + 1 from by simp]
          omega)]
        rw [htake, hlen]
        rw [show ((m, firstAttemptRecord m r) :: successEntries rest).take 1 =
          [(m, firstAttemptRecord m r)] from rfl]
        rw [hins]
        rfl
      · -- not yet at the threshold: recurse
        have hcond : (true && !s.majority_yielded &&
            decide (majority_threshold models.length ≤
              (dictInsert m (firstAttemptRecord m r) s.results).length)) = false := by
          rw [hy, hins]
          simp
          omega
        rw [hcond]
        rw [if_neg (by simp)]
        rw [List.filter_append]
        rw [show (List.filter SEvent.isMajority
          [SEvent.model_complete m (firstAttemptRecord m r)
            (s.completed_count + 1) models.length]) = [] from rfl]
        rw [List.nil_append]
        have hfresh' : ∀ p ∈ rest, p.1 ∉
            (dictInsert m (firstAttemptRecord m r) s.results).map Prod.fst := by
          intro p hp
          rw [hins]
          simp only [List.map_append, List.mem_append]
          rintro (h | h)
          · exact hfresh p (List.mem_cons_of_mem _ hp) h
          · have : p.1 = m := by simpa using h
            exact hnd.1 (this ▸ List.mem_map_of_mem Prod.fst hp)
        have hrec := ih models ⟨dictInsert m (firstAttemptRecord m r) s.results,
          s.completed_count + 1, s.majority_yielded⟩ hthr hy
          (by rw [hins]; simp; omega) hfresh' hnd.2
        rw [hrec, hins]
        obtain ⟨k, hk⟩ : ∃ k, majority_threshold models.length -
            s.results.length = k + 1 := ⟨majority_threshold models.length -
              s.results.length - 1, by omega⟩
        have hk2 : majority_threshold models.length - (s.results.length + 1) = k := by
          omega
        refine if_congr ?_ ?_ rfl
        · simp only [List.length_append, List.length_cons, List.length_nil]
          omega
        · rw [show (s.results ++ [(m, firstAttemptRecord m r)]).length =
            s.results.length + 1 from by simp]
          rw [hk, hk2, List.take_succ_cons, List.append_assoc,
            List.singleton_append]

/-- C5: in streaming collection with majority mode on (given the real
generator guarantees: each candidate settles exactly once, so arrival
keys are duplicate-free and drawn from the candidate set), the
`majority_reached` event is emitted at most once per stage per run; it is
emitted iff the candidate set is non-empty and the number of distinct
successes reaches `ceil(total/2)`; when emitted, its payload is exactly
the first `ceil(total/2)` successes reordered into original candidate
order with `completed = ceil(total/2)`, i.e. it fires exactly the first
time the count of distinct successful completions reaches the threshold;
and it is never emitted when the candidate (or, in the stage-2 instance
of the same loop, judge) set is empty. -/
theorem c5_majority_reached_once (models : List String)
    (arrivals : List (String × Option Resp))
    (hnd : (arrivals.map Prod.fst).Nodup)
    (hsub : ∀ p ∈ arrivals, p.1 ∈ models) :
    ((stage1_collect_responses_streaming models true arrivals).filter
      SEvent.isMajority).length ≤ 1 ∧
    ((∃ rs c t, SEvent.majority_reached rs c t ∈
        stage1_collect_responses_streaming models true arrivals) ↔
      (models ≠ [] ∧
        majority_threshold models.length ≤ (successEntries arrivals).length)) ∧
    (∀ rs c t, SEvent.majority_reached rs c t ∈
        stage1_collect_responses_streaming models true arrivals →
      rs = models.filterMap (fun m => alookup m
        ((successEntries arrivals).take (majority_threshold models.length))) ∧
      c = majority_threshold models.length ∧ t = models.length) ∧
    (models = [] →
      (stage1_collect_responses_streaming models true arrivals).filter
        SEvent.isMajority = []) := by
  have hml : stage1_collect_responses_streaming models true arrivals =
      (streamRun models true ⟨[], 0, false⟩ arrivals).2 ++
        [SEvent.stage_complete (models.map (fun m =>
          match alookup m (streamRun models true ⟨[], 0, false⟩ arrivals).1.results with
          | some r => r
          | none => streamPlaceholder m))] := rfl
  have hfe : (stage1_collect_responses_streaming models true arrivals).filter
      SEvent.isMajority =
      (streamRun models true ⟨[], 0, false⟩ arrivals).2.filter SEvent.isMajority := by
    rw [hml, List.filter_append]
    simp [SEvent.isMajority]
  by_cases hmod : models = []
  · have harr : arrivals = [] := by
      cases arrivals with
      | nil => rfl
      | cons a t =>
        exact absurd (hsub a (List.mem_cons_self a t)) (by simp [hmod])
    subst hmod
    subst harr
    refine ⟨by rw [hfe]; simp [streamRun], ?_, ?_, fun _ => by rw [hfe]; rfl⟩
    · simp only [hml]
      constructor
      · rintro ⟨rs, c, t, hmem⟩
        simp [streamRun] at hmem
      · rintro ⟨h, _⟩
        exact absurd rfl h
    · intro rs c t hmem
      rw [hml] at hmem
      simp [streamRun] at hmem
  · have hN : 1 ≤ models.length := by
      cases models with
      | nil => exact absurd rfl hmod
      | cons x t => simp
    have hthr : 1 ≤ majority_threshold models.length := by
      unfold majority_threshold
      omega
    have hL3 := streamRun_majority arrivals models ⟨[], 0, false⟩ hthr rfl
      (by simpa using hthr) (by simp) hnd
    simp only [List.length_nil, List.nil_append, Nat.zero_add, Nat.sub_zero]
      at hL3
    refine ⟨?_, ?_, ?_, fun h => absurd h hmod⟩
    · rw [hfe, hL3]
      split <;> simp
    · constructor
      · rintro ⟨rs, c, t, hmem⟩
        rw [hml] at hmem
        have hmem2 : SEvent.majority_reached rs c t ∈
            (streamRun models true ⟨[], 0, false⟩ arrivals).2 := by
          rcases List.mem_append.mp hmem with h | h
          · exact h
          · simp at h
        have hmf : SEvent.majority_reached rs c t ∈
            (streamRun models true ⟨[], 0, false⟩ arrivals).2.filter
              SEvent.isMajority := List.mem_filter.mpr ⟨hmem2, rfl⟩
        rw [hL3] at hmf
        by_cases hcond : majority_threshold models.length ≤
            (successEntries arrivals).length
        · exact ⟨hmod, hcond⟩
        · rw [if_neg hcond] at hmf
          simp at hmf
      · rintro ⟨_, hcond⟩
        rw [if_pos hcond] at hL3
        have : SEvent.majority_reached
            (models.filterMap (fun m' => alookup m'
              ((successEntries arrivals).take (majority_threshold models.length))))
            (majority_threshold models.length) models.length ∈
            stage1_collect_responses_streaming models true arrivals := by
          have hmem : SEvent.majority_reached
              (models.filterMap (fun m' => alookup m'
                ((successEntries arrivals).take (majority_threshold models.length))))
              (majority_threshold models.length) models.length ∈
              (streamRun models true ⟨[], 0, false⟩ arrivals).2.filter
                SEvent.isMajority := by
            rw [hL3]
            exact List.mem_singleton.mpr rfl
          rw [hml]
          exact List.mem_append_left _ ((List.mem_filter.mp hmem).1)
        exact ⟨_, _, _, this⟩
    · intro rs c t hmem
      rw [hml] at hmem
      have hmem2 : SEvent.majority_reached rs c t ∈
          (streamRun models true ⟨[], 0, false⟩ arrivals).2 := by
        rcases List.mem_append.mp hmem with h | h
        · exact h
        · simp at h
      have hmf : SEvent.majority_reached rs c t ∈
          (streamRun models true ⟨[], 0, false⟩ arrivals).2.filter
            SEvent.isMajority := List.mem_filter.mpr ⟨hmem2, rfl⟩
      rw [hL3] at hmf
      by_cases hcond : majority_threshold models.length ≤
          (successEntries arrivals).length
      · rw [if_pos hcond] at hmf
        have := List.mem_singleton.mp hmf
        injection this with h1 h2 h3
        exact ⟨h1, h2, h3⟩
      · rw [if_neg hcond] at hmf
        simp at hmf

/-- Witness for C5: with candidates `["a", "b"]`, threshold
`ceil(2/2) = 1`, and an arrival sequence in which `a` succeeds, the
majority event is emitted. -/
theorem c5_majority_reached_once_witness :
    ∃ rs c t, SEvent.majority_reached rs c t ∈
      stage1_collect_responses_streaming ["a", "b"] true
        [("a", some ⟨"ra", none, none, none⟩), ("b", none)] :=
  ((c5_majority_reached_once ["a", "b"]
    [("a", some ⟨"ra", none, none, none⟩), ("b", none)]
    (by decide) (by decide)).2.1).mpr ⟨by decide, by decide⟩

/-- C10: duplicate occurrences of the same known label within a
judgment's parsed ranking are not deduplicated.  For every judgment
list, label map and worker: (i) the worker's resolved position list
collects, per judgment in order, the 1-based index in the FULL parsed
sequence of every occurrence whose label resolves to the worker —
duplicates each contribute their own index; (ii) the aggregator's
positions dict holds exactly that list, so nothing is deduplicated;
(iii) whenever that list is non-empty the aggregate contains an entry
for the worker whose `rankings_count` is its full length and whose
`average_rank` averages all of its positions, so each occurrence
contributes to both; and (iv) concretely, a ranking parsing to
`[Response B, Response A, Response A]` with `A ↦ m1, B ↦ m2` gives `m1`
the full-sequence positions `[2, 3]` (not per-label indices) and an
aggregate entry with count `2` and average `5/2`. -/
theorem c10_duplicate_labels (stage2 : List S2Record)
    (l2m : List (String × String)) (stage1 : List S1Record) (w : String) :
    positionsOf stage2 l2m w = stage2.flatMap (fun j =>
      (List.range (parse_ranking_from_text j.ranking).length).filterMap (fun i =>
        if alookup ((parse_ranking_from_text j.ranking).getD i "") l2m = some w
        then some (i + 1) else none)) ∧
    alookup w (model_positions stage2 l2m) =
      (if (positionsOf stage2 l2m w).isEmpty then none
       else some (positionsOf stage2 l2m w)) ∧
    (positionsOf stage2 l2m w ≠ [] →
      ∃ e ∈ calculate_aggregate_rankings stage2 l2m stage1,
        e.model = w ∧
        e.rankings_count = (positionsOf stage2 l2m w).length ∧
        e.average_rank = round2
          (((positionsOf stage2 l2m w).map (fun p => (p : ℚ))).sum /
            (positionsOf stage2 l2m w).length)) ∧
    positionsOf
      [⟨"J1", "FINAL RANKING:\n1. Response B\n2. Response A\n3. Response A",
        [], none, none⟩]
      [("Response A", "m1"), ("Response B", "m2")] "m1" = [2, 3] ∧
    calculate_aggregate_rankings
      [⟨"J1", "FINAL RANKING:\n1. Response B\n2. Response A\n3. Response A",
        [], none, none⟩]
      [("Response A", "m1"), ("Response B", "m2")] [] =
      [⟨"m2", 1, 1, 0, 0⟩, ⟨"m1", 5 / 2, 2, 0, 0⟩] := by
  refine ⟨?_, alookup_model_positions_none_start l2m stage2 w, ?_, by decide,
    by with_unfolding_all rfl⟩
  · unfold positionsOf
    congr 1
    funext j
    exact posInJudgment_index_form l2m w j
  · intro h
    exact ⟨aggregateEntryOf stage2 stage1 (w, positionsOf stage2 l2m w),
      aggregateEntry_mem_of_positions stage2 l2m stage1 w h, rfl, rfl, rfl⟩

/-- Witness for C10: the per-occurrence contribution conjunct applied at
the concrete duplicate-label instance `[Response B, Response A,
Response A]` with `A ↦ m1`. -/
theorem c10_duplicate_labels_witness :
    ∃ e ∈ calculate_aggregate_rankings
      [⟨"J1", "FINAL RANKING:\n1. Response B\n2. Response A\n3. Response A",
        [], none, none⟩]
      [("Response A", "m1"), ("Response B", "m2")] [],
      e.model = "m1" ∧
      e.rankings_count = (positionsOf
        [⟨"J1", "FINAL RANKING:\n1. Response B\n2. Response A\n3. Response A",
          [], none, none⟩]
        [("Response A", "m1"), ("Response B", "m2")] "m1").length ∧
      e.average_rank = round2
        (((positionsOf
            [⟨"J1", "FINAL RANKING:\n1. Response B\n2. Response A\n3. Response A",
              [], none, none⟩]
            [("Response A", "m1"), ("Response B", "m2")] "m1").map
              (fun p => (p : ℚ))).sum /
          (positionsOf
            [⟨"J1", "FINAL RANKING:\n1. Response B\n2. Response A\n3. Response A",
              [], none, none⟩]
            [("Response A", "m1"), ("Response B", "m2")] "m1").length) :=
  (c10_duplicate_labels
    [⟨"J1", "FINAL RANKING:\n1. Response B\n2. Response A\n3. Response A",
      [], none, none⟩]
    [("Response A", "m1"), ("Response B", "m2")] [] "m1").2.2.1 (by decide)

theorem mem_stage2_judges_iff (active : List String) (s1 : List S1Record)
    (m : String) :
    m ∈ stage2_judges active s1 ↔
      m ∈ active ∧ ∃ rcd ∈ s1, rcd.model = m ∧ rcd.response ≠ placeholderResponse := by
  unfold stage2_judges
  rw [List.mem_filter]
  refine and_congr_right (fun _ => ?_)
  rw [List.any_eq_true]
  constructor
  · rintro ⟨rcd, hrcd, hp⟩
    simp only [Bool.and_eq_true, beq_iff_eq, bne_iff_ne] at hp
    exact ⟨rcd, hrcd, hp.1, hp.2⟩
  · rintro ⟨rcd, hrcd, h1, h2⟩
    exact ⟨rcd, hrcd, by simp [h1, h2]⟩

theorem perModel_model_eq {first retry : String → Option Resp} {m : String}
    {rcd : S1Record} (h : rcd ∈ perModelRecords first retry m) : rcd.model = m := by
  unfold perModelRecords at h
  cases hf : first m with
  | some r =>
    rw [hf] at h
    rcases List.mem_singleton.mp h with rfl
    rfl
  | none =>
    rw [hf] at h
    cases hr : retry m with
    | some r2 =>
      rw [hr] at h
      rcases List.mem_cons.mp h with rfl | h2
      · rfl
      · rcases List.mem_singleton.mp h2 with rfl
        rfl
    | none =>
      rw [hr] at h
      rcases List.mem_singleton.mp h with rfl
      rfl

theorem secondAttempt_ne_placeholder (c : String) :
    secondAttemptNote ++ c ≠ placeholderResponse := by
  intro h
  have hM : (secondAttemptNote ++ c).data.head? = some 'M' := by
    rw [String.data_append]
    rfl
  rw [h] at hM
  exact absurd hM (by decide)

/-- C7: in batch mode the stage-2 judge pool is exactly the subset of the
active candidate set whose stage-1 output contains at least one record
whose response differs from the placeholder; a candidate that failed
first but succeeded on retry is a judge, and a candidate whose only
record is the placeholder is not. -/
theorem c7_judge_pool (active models : List String)
    (first retry : String → Option Resp) (m : String) :
    (∀ s1 : List S1Record,
      m ∈ stage2_judges active s1 ↔
        m ∈ active ∧ ∃ rcd ∈ s1, rcd.model = m ∧ rcd.response ≠ placeholderResponse) ∧
    (m ∈ active → m ∈ models → first m = none → ∀ r2, retry m = some r2 →
      m ∈ stage2_judges active (stage1_collect_responses models first retry)) ∧
    (m ∈ models → first m = none → retry m = none →
      m ∉ stage2_judges active (stage1_collect_responses models first retry)) := by
  refine ⟨fun s1 => mem_stage2_judges_iff active s1 m, ?_, ?_⟩
  · intro ha hm hf r2 hr
    rw [mem_stage2_judges_iff]
    refine ⟨ha, secondAttemptRecord m r2, ?_, rfl, secondAttempt_ne_placeholder r2.content⟩
    rw [stage1_eq_flatMap]
    rw [List.mem_flatMap]
    refine ⟨m, hm, ?_⟩
    unfold perModelRecords
    rw [hf, hr]
    simp
  · intro hm hf hr hj
    rw [mem_stage2_judges_iff] at hj
    obtain ⟨_, rcd, hrcd, hmodel, hresp⟩ := hj
    rw [stage1_eq_flatMap, List.mem_flatMap] at hrcd
    obtain ⟨m', _, hmem⟩ := hrcd
    have : m' = m := by rw [← perModel_model_eq hmem, hmodel]
    subst this
    unfold perModelRecords at hmem
    rw [hf, hr] at hmem
    rcases List.mem_singleton.mp hmem with rfl
    exact hresp rfl

/-- Witness for C7: with one failed-then-retried candidate, that
candidate is in the judge pool; instantiates the general equivalence and
the retried-success conjunct at concrete inputs. -/
theorem c7_judge_pool_witness :
    "model-a" ∈ stage2_judges ["model-a"]
      (stage1_collect_responses ["model-a"] (fun _ => none)
        (fun _ => some ⟨"late", some 50, none, none⟩)) :=
  (c7_judge_pool ["model-a"] ["model-a"] (fun _ => none)
    (fun _ => some ⟨"late", some 50, none, none⟩) "model-a").2.1
    (by decide) (by decide) rfl ⟨"late", some 50, none, none⟩ rfl

/-- C8: `parse_ranking_from_text` is a total function whose output, on
every input string, is an ordered list of label tokens (each of the form
`"Response "` followed by one uppercase letter); in particular it maps
`"intro text FINAL RANKING:\n1. Response B\n2. Response A"` to
`["Response B", "Response A"]`, and maps an input with no marker and no
label mentions to the empty list. -/
theorem c8_rank_extractor_total :
    (∀ s x, x ∈ parse_ranking_from_text s →
      ∃ c, ('A' ≤ c ∧ c ≤ 'Z') ∧ x = "Response ".push c) ∧
    parse_ranking_from_text "intro text FINAL RANKING:\n1. Response B\n2. Response A" =
      ["Response B", "Response A"] ∧
    parse_ranking_from_text "no marker, no mentions" = [] := by
  refine ⟨fun s x h => ?_, by decide, by decide⟩
  obtain ⟨c, hc, hx⟩ := parse_shape s x h
  refine ⟨c, ?_, hx⟩
  simpa [isUpperAZ] using hc

/-- Witness for C8: a concrete membership instance of the general shape
statement, plus the two concrete evaluations. -/
theorem c8_rank_extractor_total_witness :
    ∃ c, ('A' ≤ c ∧ c ≤ 'Z') ∧ "Response B" = "Response ".push c :=
  c8_rank_extractor_total.1 "intro text FINAL RANKING:\n1. Response B\n2. Response A"
    "Response B" (by decide)

